import Mathlib

/-!
Verification of the NameTrends core pipeline (`generate.py`).

The Python source is shallowly embedded: Python `dict`s become association
lists that preserve insertion order (`dictInsert` updates a present key in
place and appends a new key at the end, exactly like CPython dicts), Python's
stable `list.sort` / `sorted` becomes a stable insertion sort, and fallible
code returns `Except String`.  The three core functions `parse_names`,
`compute_ranks` and `calculate_trending` are translated line by line from the
source.
-/

namespace NameTrends

/-- `alookup k l` models Python dict lookup `l[k]` / `k in l` on an
association list. -/
def alookup [DecidableEq α] (k : α) : List (α × β) → Option β
  | [] => none
  | (k', v) :: rest => if k = k' then some v else alookup k rest

/-- `dictInsert k v l` models the Python dict assignment `l[k] = v`:
an existing key keeps its position and gets the new value, a new key is
appended at the end (CPython insertion-order semantics). -/
def dictInsert [DecidableEq α] (k : α) (v : β) : List (α × β) → List (α × β)
  | [] => [(k, v)]
  | (k', v') :: rest =>
    if k = k' then (k, v) :: rest else (k', v') :: dictInsert k v rest

/-- name → count, one `(year, sex)` group of the parsed data. -/
abbrev CountMap := List (String × Int)

/-- sex → (name → count). -/
abbrev SexMap := List (String × CountMap)

/-- The parser output `years[year][sex][name] = count`. -/
abbrev YearCountTable := List (Nat × SexMap)

/-- year → rank for one `(sex, name)`. -/
abbrev YearRanks := List (Nat × Nat)

/-- name → (year → rank) for one sex. -/
abbrev NameRanks := List (String × YearRanks)

/-- The output of `compute_ranks`: the Python code builds the literal dict
`{"M": defaultdict(dict), "F": defaultdict(dict)}`, so the table has exactly
the two fields. -/
structure RankTable where
  M : NameRanks
  F : NameRanks
deriving Repr, DecidableEq

/-- Strict lexicographic order on character lists, by code point — the
comparison Python uses on strings. -/
def charListLt : List Char → List Char → Bool
  | [], [] => false
  | [], _ :: _ => true
  | _ :: _, [] => false
  | a :: as, b :: bs => if a < b then true else if b < a then false else charListLt as bs

/-- Reflexive lexicographic order on character lists, by code point. -/
def charListLe : List Char → List Char → Bool
  | [], _ => true
  | _ :: _, [] => false
  | a :: as, b :: bs => if a < b then true else if b < a then false else charListLe as bs

/-- Python's `s1 < s2` on strings: lexicographic, case-sensitive, by code
point. -/
def strLt (a b : String) : Bool :=
  charListLt a.data b.data

/-- Python's `s1 <= s2` on strings. -/
def strLe (a b : String) : Bool :=
  charListLe a.data b.data

/-- Python's stable sort, insertion step: `x` is placed before the first
element `y` with `le x y`, hence before every element whose sort key equals
the key of `x`. -/
def insertLe (le : α → α → Bool) (x : α) : List α → List α
  | [] => [x]
  | y :: ys => if le x y then x :: y :: ys else y :: insertLe le x ys

/-- Python's stable `list.sort` / `sorted` (a stable sort is uniquely
determined by the `le` comparison, so insertion sort is a faithful model of
Timsort's input/output behaviour). -/
def pySort (le : α → α → Bool) : List α → List α
  | [] => []
  | x :: xs => insertLe le x (pySort le xs)

/-- Models Python `int(s)` on the numerals occurring in the dataset:
a digit string, reading left to right. -/
def digitsToNat : List Char → Nat → Option Nat
  | [], acc => some acc
  | c :: rest, acc =>
    if c.isDigit then digitsToNat rest (acc * 10 + (c.toNat - 48)) else none

/-- Models Python `int(s)`: optional sign followed by decimal digits
(whitespace stripping and underscore separators are not modelled; the
dataset's count fields are plain numerals). -/
def pyInt (s : String) : Option Int :=
  match s.data with
  | [] => none
  | '-' :: rest =>
    if rest.isEmpty then none else (digitsToNat rest 0).map (fun v => -(v : Int))
  | '+' :: rest =>
    if rest.isEmpty then none else (digitsToNat rest 0).map (fun v => (v : Int))
  | l => (digitsToNat l 0).map (fun v => (v : Int))

/-- The assignment `years[year][sex][name] = count` from `parse_names`,
including the `defaultdict` auto-creation of the two inner levels. -/
def ycInsert (year : Nat) (sex name : String) (count : Int)
    (yd : YearCountTable) : YearCountTable :=
  let sm := (alookup year yd).getD []
  let cm := (alookup sex sm).getD []
  dictInsert year (dictInsert sex (dictInsert name count cm) sm) yd

/-- One iteration of the row loop of `parse_names`:
`name, sex, count = row` (raising if the row does not have exactly three
fields) followed by `years[year][sex][name] = int(count)` (raising if the
count does not parse as an integer). -/
def parseRow (year : Nat) (row : List String) (yd : YearCountTable) :
    Except String YearCountTable :=
  match row with
  | [name, sex, count] =>
    match pyInt count with
    | some c => .ok (ycInsert year sex name c yd)
    | none => .error "ValueError: invalid literal for int()"
  | _ => .error "ValueError: not enough values to unpack"

/-- The row loop of `parse_names` over one per-year file. -/
def parseRows (year : Nat) : List (List String) → YearCountTable →
    Except String YearCountTable
  | [], yd => .ok yd
  | row :: rest, yd =>
    match parseRow year row yd with
    | .ok yd' => parseRows year rest yd'
    | .error e => .error e

/-- The file loop of `parse_names`. -/
def parseFiles : List (Nat × List (List String)) → YearCountTable →
    Except String YearCountTable
  | [], yd => .ok yd
  | (year, rows) :: rest, yd =>
    match parseRows year rows yd with
    | .ok yd' => parseFiles rest yd'
    | .error e => .error e

/-- `parse_names`: the input is the archive after the filename filtering of
lines 53–56 of the source — each per-year text table paired with the 4-digit
year taken from its `yobYYYY.txt` name, each row already split by the csv
reader into its comma-separated fields. -/
def parse_names (files : List (Nat × List (List String))) :
    Except String YearCountTable :=
  parseFiles files []

/-- The record stream of the archive in processing order. -/
def flatRows (files : List (Nat × List (List String))) :
    List (Nat × List String) :=
  files.foldr (fun f acc => f.2.map (fun r => (f.1, r)) ++ acc) []

/-- The parser viewed over the flattened record stream; it processes exactly
the same assignments in the same order as `parseFiles`. -/
def parseRecs : List (Nat × List String) → YearCountTable →
    Except String YearCountTable
  | [], yd => .ok yd
  | (year, row) :: rest, yd =>
    match parseRow year row yd with
    | .ok yd' => parseRecs rest yd'
    | .error e => .error e

/-- A row the parser accepts: exactly three fields with an integer count. -/
def wfRow (row : List String) : Bool :=
  match row with
  | [_, _, c] => (pyInt c).isSome
  | _ => false

/-- Whether a record of the stream carries the key `(year, sex, name)`. -/
def recMatches (y : Nat) (s n : String) (r : Nat × List String) : Bool :=
  match r.2 with
  | [n', s', _] => r.1 == y && n' == n && s' == s
  | _ => false

/-- The parsed count field of a record. -/
def rowCount (r : Nat × List String) : Option Int :=
  match r.2 with
  | [_, _, c] => pyInt c
  | _ => none

/-- Reading `years[year][sex][name]` from the parser output (absent levels
give `none`). -/
def lookupYC (yd : YearCountTable) (y : Nat) (s n : String) : Option Int :=
  alookup n ((alookup s ((alookup y yd).getD [])).getD [])

/-- The sort comparison of `compute_ranks` line 76: key
`(-count, name)` compared lexicographically, i.e. count descending with ties
broken by name ascending (case-sensitive codepoint order). -/
def rankLe (a b : String × Int) : Bool :=
  decide (b.2 < a.2) || (decide (a.2 = b.2) && strLe a.1 b.1)

/-- `sorted(names_counts.items(), key=lambda kv: (-kv[1], kv[0]))`. -/
def sortCounts (ncs : CountMap) : CountMap :=
  pySort rankLe ncs

/-- The loop `for rank, (name, _) in enumerate(sorted_names, start=1):
ranks[sex][name][year] = rank`, with `start` the rank of the head of the
remaining list; `ranks[sex]` is a `defaultdict(dict)`, hence the `getD []`. -/
def assignRanksFrom (year : Nat) (start : Nat) :
    CountMap → NameRanks → NameRanks
  | [], nr => nr
  | (name, _) :: rest, nr =>
    assignRanksFrom year (start + 1) rest
      (dictInsert name (dictInsert year start ((alookup name nr).getD [])) nr)

/-- Rank assignment for one `(year, sex)` group, ranks starting at 1. -/
def assignRanks (year : Nat) (sorted : CountMap) (nr : NameRanks) : NameRanks :=
  assignRanksFrom year 1 sorted nr

/-- Processing of one `(year, sex)` group by `compute_ranks`.  The Python
`ranks` dict has exactly the keys `"M"` and `"F"`, so the first assignment
`ranks[sex][name][year] = rank` raises `KeyError` for any other sex code; if
the group is empty the assignment loop never runs and nothing is accessed. -/
def rankGroup (year : Nat) (sex : String) (ncs : CountMap) (rt : RankTable) :
    Except String RankTable :=
  let sorted := sortCounts ncs
  if sorted.isEmpty then .ok rt
  else if sex = "M" then .ok { rt with M := assignRanks year sorted rt.M }
  else if sex = "F" then .ok { rt with F := assignRanks year sorted rt.F }
  else .error ("KeyError: " ++ sex)

/-- The inner loop `for sex, names_counts in sex_data.items()`. -/
def rankSexes (year : Nat) : SexMap → RankTable → Except String RankTable
  | [], rt => .ok rt
  | (sex, ncs) :: rest, rt =>
    match rankGroup year sex ncs rt with
    | .ok rt' => rankSexes year rest rt'
    | .error e => .error e

/-- The outer loop `for year, sex_data in years_data.items()`. -/
def compute_ranks_aux : YearCountTable → RankTable → Except String RankTable
  | [], rt => .ok rt
  | (year, sd) :: rest, rt =>
    match rankSexes year sd rt with
    | .ok rt' => compute_ranks_aux rest rt'
    | .error e => .error e

/-- `compute_ranks`, starting from `{"M": defaultdict(dict), "F": defaultdict(dict)}`. -/
def compute_ranks (yd : YearCountTable) : Except String RankTable :=
  compute_ranks_aux yd ⟨[], []⟩

/-- Reading `year → rank` out of one sex's name map. -/
def lookupNR (nr : NameRanks) (name : String) (year : Nat) : Option Nat :=
  (alookup name nr).bind (alookup year)

/-- Reading `ranks[sex][name][year]`; a sex other than the two keys of the
table has no entries. -/
def lookupRank (rt : RankTable) (sex name : String) (year : Nat) : Option Nat :=
  if sex = "M" then lookupNR rt.M name year
  else if sex = "F" then lookupNR rt.F name year
  else none

/-- One entry of the trending list: the tuple
`(name, sex, current_rank, prev_rank, improvement)` of line 106. -/
structure TrendEntry where
  name : String
  sex : String
  currentRank : Nat
  prevRank : Nat
  improvement : Int
deriving Repr, DecidableEq

/-- The sort comparison of line 108: key `(-improvement, current_rank, name)`
compared lexicographically — improvement descending, then current rank
ascending, then name ascending.  The key omits the sex. -/
def trendLe (a b : TrendEntry) : Bool :=
  decide (b.improvement < a.improvement) ||
    (decide (a.improvement = b.improvement) &&
      (decide (a.currentRank < b.currentRank) ||
        (decide (a.currentRank = b.currentRank) && strLe a.name b.name)))

/-- The sort key `(-(tup[4]), tup[2], tup[0])` of line 108 as a value:
`(-improvement, current_rank, name)`.  Two entries compare equal under
`trendLe` exactly when their keys agree. -/
def trendSortKey (e : TrendEntry) : Int × Nat × String :=
  (-e.improvement, e.currentRank, e.name)

/-- The years of one sex's rank map, in iteration order. -/
def nameRankYears (nr : NameRanks) : List Nat :=
  nr.foldr (fun p acc => p.2.map Prod.fst ++ acc) []

/-- The union (with duplicates; only its distinct cardinality and maxima are
ever used) of all years appearing anywhere in the rank table, lines 90–93. -/
def allYears (rt : RankTable) : List Nat :=
  nameRankYears rt.M ++ nameRankYears rt.F

/-- `max` of a list of years (the code only evaluates it on a nonempty
union, where the `0` base is absorbed). -/
def maxNat (l : List Nat) : Nat :=
  l.foldl max 0

/-- `last_year = max(all_years)`, line 96. -/
def lastYear (rt : RankTable) : Nat :=
  maxNat (allYears rt)

/-- `prev_year = max(y for y in all_years if y < last_year)`, line 97. -/
def prevYear (rt : RankTable) : Nat :=
  maxNat ((allYears rt).filter (fun y => y < lastYear rt))

/-- The candidate generation of lines 101–106 for one sex: every name whose
rank map contains both comparison years contributes the tuple
`(name, sex, current_rank, prev_rank, prev_rank - current_rank)`. -/
def candidatesFor (sex : String) (ly py : Nat) (nr : NameRanks) :
    List TrendEntry :=
  nr.filterMap (fun p =>
    match alookup ly p.2, alookup py p.2 with
    | some cr, some pr =>
      some ⟨p.1, sex, cr, pr, (pr : Int) - (cr : Int)⟩
    | _, _ => none)

/-- The full candidate list: the loop `for sex in ["M", "F"]` generates the
`"M"` candidates before the `"F"` candidates. -/
def trendCandidates (rt : RankTable) : List TrendEntry :=
  candidatesFor "M" (lastYear rt) (prevYear rt) rt.M ++
    candidatesFor "F" (lastYear rt) (prevYear rt) rt.F

/-- Python's slice `l[:n]` for an arbitrary integer bound: a nonnegative
bound keeps the first `n` elements, a negative bound drops the last `|n|`. -/
def pySliceTo (n : Int) (l : List α) : List α :=
  if 0 ≤ n then l.take n.toNat else l.take ((l.length : Int) + n).toNat

/-- `calculate_trending(ranks, top_n)` (the source's default for `top_n` is
100): empty if fewer than two distinct years appear anywhere, otherwise the
stable sort of the candidates by `(-improvement, current_rank, name)`
truncated by the slice `[:top_n]`. -/
def calculate_trending (ranks : RankTable) (top_n : Int) : List TrendEntry :=
  if (allYears ranks).dedup.length < 2 then []
  else pySliceTo top_n (pySort trendLe (trendCandidates ranks))

/-! ### Concrete inputs used by the witnesses and counterexamples -/

/-- Two names over two years for sex `"M"`, with an exact count tie in the
first year (the spec's §8 example scenario). -/
def ydW : YearCountTable :=
  [(2000, [("M", [("Sam", 5), ("Alex", 5)])]),
   (2001, [("M", [("Alex", 1), ("Sam", 9)])])]

/-- The `(year 2000)` sex map of `ydW`. -/
def sdW : SexMap :=
  [("M", [("Sam", 5), ("Alex", 5)])]

/-- The year-2000 `"M"` group of `ydW`: two names with equal counts. -/
def ncsW : CountMap :=
  [("Sam", 5), ("Alex", 5)]

/-- The rank table `compute_ranks` produces for `ydW`. -/
def rtW : RankTable :=
  ((compute_ranks ydW).toOption).getD ⟨[], []⟩

/-- A rank table with two qualifying candidates, used to exercise the
negative-`top_n` slice. -/
def rt7 : RankTable :=
  ⟨[("Alex", [(2000, 1), (2001, 2)]), ("Sam", [(2000, 2), (2001, 1)])], []⟩

/-- A rank table with a single year of data. -/
def rt5 : RankTable :=
  ⟨[("Alex", [(2000, 1)])], [("Mia", [(2000, 1)])]⟩

/-- A year-count table carrying a sex code other than `"M"`/`"F"`, as the
parser stores verbatim. -/
def ydX : YearCountTable :=
  [(2000, [("X", [("Alex", 5)])])]

/-- The trend entry `calculate_trending` produces for `"Sam"` on `rtW`. -/
def eSam : TrendEntry :=
  ⟨"Sam", "M", 1, 2, 1⟩

/-- An archive in which the key `(2000, "M", "Alex")` appears in two
records with different counts. -/
def files0 : List (Nat × List (List String)) :=
  [(2000, [["Alex", "M", "10"], ["Mia", "F", "4"], ["Alex", "M", "7"]])]

/-! ### Order lemmas for the lexicographic string comparison -/

theorem charListLe_nil_left (b : List Char) : charListLe [] b = true := by
  cases b <;> rfl

theorem charListLe_cons_iff {x y : Char} {as bs : List Char} :
    charListLe (x :: as) (y :: bs) = true ↔
      x < y ∨ (x = y ∧ charListLe as bs = true) := by
  by_cases h1 : x < y
  · simp [charListLe, h1]
  · by_cases h2 : y < x
    · have hne : ¬ x = y := fun h => absurd (h ▸ h2) (lt_irrefl x)
      simp [charListLe, h1, h2, hne]
    · have hxy : x = y := le_antisymm (not_lt.mp h2) (not_lt.mp h1)
      simp [charListLe, h1, h2, hxy]

theorem charListLt_cons_iff {x y : Char} {as bs : List Char} :
    charListLt (x :: as) (y :: bs) = true ↔
      x < y ∨ (x = y ∧ charListLt as bs = true) := by
  by_cases h1 : x < y
  · simp [charListLt, h1]
  · by_cases h2 : y < x
    · have hne : ¬ x = y := fun h => absurd (h ▸ h2) (lt_irrefl x)
      simp [charListLt, h1, h2, hne]
    · have hxy : x = y := le_antisymm (not_lt.mp h2) (not_lt.mp h1)
      simp [charListLt, h1, h2, hxy]

theorem charListLe_total : ∀ a b : List Char,
    charListLe a b = true ∨ charListLe b a = true := by
  intro a
  induction a with
  | nil => intro b; exact Or.inl (charListLe_nil_left b)
  | cons x as ih =>
    intro b
    cases b with
    | nil => exact Or.inr (charListLe_nil_left _)
    | cons y bs =>
      rcases lt_trichotomy x y with h | h | h
      · exact Or.inl (charListLe_cons_iff.mpr (Or.inl h))
      · rcases ih bs with h' | h'
        · exact Or.inl (charListLe_cons_iff.mpr (Or.inr ⟨h, h'⟩))
        · exact Or.inr (charListLe_cons_iff.mpr (Or.inr ⟨h.symm, h'⟩))
      · exact Or.inr (charListLe_cons_iff.mpr (Or.inl h))

theorem charListLe_trans : ∀ a b c : List Char,
    charListLe a b = true → charListLe b c = true → charListLe a c = true := by
  intro a
  induction a with
  | nil => intro b c _ _; exact charListLe_nil_left c
  | cons x as ih =>
    intro b c hab hbc
    cases b with
    | nil => simp [charListLe] at hab
    | cons y bs =>
      cases c with
      | nil => simp [charListLe] at hbc
      | cons z cs =>
        rcases charListLe_cons_iff.mp hab with h1 | ⟨h1, h1'⟩ <;>
          rcases charListLe_cons_iff.mp hbc with h2 | ⟨h2, h2'⟩
        · exact charListLe_cons_iff.mpr (Or.inl (lt_trans h1 h2))
        · exact charListLe_cons_iff.mpr (Or.inl (h2 ▸ h1))
        · exact charListLe_cons_iff.mpr (Or.inl (h1 ▸ h2))
        · exact charListLe_cons_iff.mpr (Or.inr ⟨h1.trans h2, ih bs cs h1' h2'⟩)

theorem charListLe_antisymm : ∀ a b : List Char,
    charListLe a b = true → charListLe b a = true → a = b := by
  intro a
  induction a with
  | nil =>
    intro b _ hba
    cases b with
    | nil => rfl
    | cons y bs => simp [charListLe] at hba
  | cons x as ih =>
    intro b hab hba
    cases b with
    | nil => simp [charListLe] at hab
    | cons y bs =>
      rcases charListLe_cons_iff.mp hab with h1 | ⟨h1, h1'⟩ <;>
        rcases charListLe_cons_iff.mp hba with h2 | ⟨h2, h2'⟩
      · exact absurd h2 (lt_asymm h1)
      · exact absurd (h2 ▸ h1) (lt_irrefl y)
      · exact absurd (h1 ▸ h2) (lt_irrefl y)
      · rw [h1, ih bs h1' h2']

theorem charListLt_iff_not_le : ∀ a b : List Char,
    charListLt a b = true ↔ ¬ charListLe b a = true := by
  intro a
  induction a with
  | nil =>
    intro b
    cases b with
    | nil => simp [charListLt, charListLe]
    | cons y bs => simp [charListLt, charListLe]
  | cons x as ih =>
    intro b
    cases b with
    | nil => simp [charListLt, charListLe_nil_left]
    | cons y bs =>
      rw [charListLt_cons_iff]
      constructor
      · rintro (h | ⟨rfl, h⟩) hle
        · rcases charListLe_cons_iff.mp hle with h' | ⟨h', _⟩
          · exact lt_asymm h h'
          · exact absurd (h' ▸ h) (lt_irrefl y)
        · rcases charListLe_cons_iff.mp hle with h' | ⟨h', h''⟩
          · exact lt_irrefl x h'
          · exact (ih bs).mp h h''
      · intro hle
        rcases lt_trichotomy x y with h | h | h
        · exact Or.inl h
        · refine Or.inr ⟨h, (ih bs).mpr ?_⟩
          intro h'
          exact hle (charListLe_cons_iff.mpr (Or.inr ⟨h.symm, h'⟩))
        · exact absurd (charListLe_cons_iff.mpr (Or.inl h)) hle

theorem strLe_total (a b : String) : strLe a b = true ∨ strLe b a = true :=
  charListLe_total a.data b.data

theorem strLe_trans {a b c : String} (h1 : strLe a b = true)
    (h2 : strLe b c = true) : strLe a c = true :=
  charListLe_trans a.data b.data c.data h1 h2

theorem strLe_antisymm {a b : String} (h1 : strLe a b = true)
    (h2 : strLe b a = true) : a = b := by
  cases a with
  | mk da =>
    cases b with
    | mk db =>
      have : da = db := charListLe_antisymm da db h1 h2
      rw [this]

theorem strLt_iff_not_le {a b : String} :
    strLt a b = true ↔ ¬ strLe b a = true :=
  charListLt_iff_not_le a.data b.data

/-! ### The stable sort: permutation, sortedness, stability -/

theorem insertLe_perm (le : α → α → Bool) (x : α) (l : List α) :
    List.Perm (insertLe le x l) (x :: l) := by
  induction l with
  | nil => exact List.Perm.refl _
  | cons y ys ih =>
    simp only [insertLe]
    by_cases h : le x y
    · rw [if_pos h]
    · rw [if_neg h]
      exact (ih.cons y).trans (List.Perm.swap x y ys)

theorem pySort_perm (le : α → α → Bool) (l : List α) :
    List.Perm (pySort le l) l := by
  induction l with
  | nil => exact List.Perm.refl _
  | cons x xs ih =>
    exact (insertLe_perm le x (pySort le xs)).trans (ih.cons x)

theorem mem_insertLe {le : α → α → Bool} {x a : α} {l : List α} :
    a ∈ insertLe le x l ↔ a = x ∨ a ∈ l := by
  rw [(insertLe_perm le x l).mem_iff, List.mem_cons]

theorem pySort_length (le : α → α → Bool) (l : List α) :
    (pySort le l).length = l.length :=
  (pySort_perm le l).length_eq

theorem pairwise_insertLe (le : α → α → Bool)
    (htot : ∀ a b, le a b = true ∨ le b a = true)
    (htrans : ∀ a b c, le a b = true → le b c = true → le a c = true)
    (x : α) {l : List α} (hl : l.Pairwise (fun a b => le a b = true)) :
    (insertLe le x l).Pairwise (fun a b => le a b = true) := by
  induction l with
  | nil => simp [insertLe]
  | cons y ys ih =>
    rcases List.pairwise_cons.mp hl with ⟨hy, hys⟩
    simp only [insertLe]
    by_cases h : le x y
    · rw [if_pos h]
      refine List.pairwise_cons.mpr ⟨?_, hl⟩
      intro b hb
      rcases List.mem_cons.mp hb with rfl | hb
      · exact h
      · exact htrans x y b h (hy b hb)
    · rw [if_neg h]
      refine List.pairwise_cons.mpr ⟨?_, ih hys⟩
      intro b hb
      rcases mem_insertLe.mp hb with heq | hb
      · rw [heq]
        exact (htot x y).resolve_left (fun h' => h h')
      · exact hy b hb

theorem pairwise_pySort (le : α → α → Bool)
    (htot : ∀ a b, le a b = true ∨ le b a = true)
    (htrans : ∀ a b c, le a b = true → le b c = true → le a c = true)
    (l : List α) :
    (pySort le l).Pairwise (fun a b => le a b = true) := by
  induction l with
  | nil => simp [pySort]
  | cons x xs ih => exact pairwise_insertLe le htot htrans x ih

theorem filter_insertLe_pos (le : α → α → Bool) (p : α → Bool) (x : α)
    {l : List α} (hx : p x = true)
    (hall : ∀ y ∈ l, p y = true → le x y = true) :
    (insertLe le x l).filter p = x :: l.filter p := by
  induction l with
  | nil => simp [insertLe, hx]
  | cons y ys ih =>
    simp only [insertLe]
    by_cases h : le x y
    · rw [if_pos h, List.filter_cons_of_pos hx]
    · rw [if_neg h]
      have hpy : p y = false := by
        cases hy : p y with
        | false => rfl
        | true => exact absurd (hall y (List.mem_cons_self y ys) hy) h
      rw [List.filter_cons_of_neg (by simp [hpy]),
        ih (fun z hz hp => hall z (List.mem_cons_of_mem y hz) hp),
        List.filter_cons_of_neg (by simp [hpy])]

theorem filter_insertLe_neg (le : α → α → Bool) (p : α → Bool) (x : α)
    {l : List α} (hx : p x = false) :
    (insertLe le x l).filter p = l.filter p := by
  induction l with
  | nil => simp [insertLe, hx]
  | cons y ys ih =>
    simp only [insertLe]
    by_cases h : le x y
    · rw [if_pos h, List.filter_cons_of_neg (by simp [hx])]
    · rw [if_neg h]
      cases hy : p y with
      | false =>
        rw [List.filter_cons_of_neg (by simp [hy]), ih,
          List.filter_cons_of_neg (by simp [hy])]
      | true =>
        rw [List.filter_cons_of_pos hy, ih, List.filter_cons_of_pos hy]

/-- Stability of the sort, phrased through filters: the elements sharing one
sort key (any class of mutually `le`-equivalent elements) come out in exactly
the order they went in. -/
theorem pySort_filter_stable (le : α → α → Bool) (p : α → Bool)
    (hp : ∀ a b, p a = true → p b = true → le a b = true) (l : List α) :
    (pySort le l).filter p = l.filter p := by
  induction l with
  | nil => rfl
  | cons x xs ih =>
    simp only [pySort]
    cases hx : p x with
    | true =>
      rw [filter_insertLe_pos le p x hx
          (fun y hy hpy => hp x y hx hpy),
        ih, List.filter_cons_of_pos hx]
    | false =>
      rw [filter_insertLe_neg le p x hx, ih,
        List.filter_cons_of_neg (by simp [hx])]

/-! ### The two sort comparisons as propositions, totality, transitivity -/

theorem rankLe_iff {a b : String × Int} :
    rankLe a b = true ↔
      b.2 < a.2 ∨ (a.2 = b.2 ∧ strLe a.1 b.1 = true) := by
  simp [rankLe, Bool.or_eq_true, Bool.and_eq_true, decide_eq_true_eq]

theorem rankLe_total (a b : String × Int) :
    rankLe a b = true ∨ rankLe b a = true := by
  rcases lt_trichotomy a.2 b.2 with h | h | h
  · exact Or.inr (rankLe_iff.mpr (Or.inl h))
  · rcases strLe_total a.1 b.1 with h' | h'
    · exact Or.inl (rankLe_iff.mpr (Or.inr ⟨h, h'⟩))
    · exact Or.inr (rankLe_iff.mpr (Or.inr ⟨h.symm, h'⟩))
  · exact Or.inl (rankLe_iff.mpr (Or.inl h))

theorem rankLe_trans (a b c : String × Int)
    (h1 : rankLe a b = true) (h2 : rankLe b c = true) : rankLe a c = true := by
  rcases rankLe_iff.mp h1 with h1 | ⟨h1, h1'⟩ <;>
    rcases rankLe_iff.mp h2 with h2 | ⟨h2, h2'⟩
  · exact rankLe_iff.mpr (Or.inl (lt_trans h2 h1))
  · exact rankLe_iff.mpr (Or.inl (h2 ▸ h1))
  · exact rankLe_iff.mpr (Or.inl (h1 ▸ h2))
  · exact rankLe_iff.mpr (Or.inr ⟨h1.trans h2, strLe_trans h1' h2'⟩)

theorem trendLe_iff {a b : TrendEntry} :
    trendLe a b = true ↔
      b.improvement < a.improvement ∨
        (a.improvement = b.improvement ∧
          (a.currentRank < b.currentRank ∨
            (a.currentRank = b.currentRank ∧ strLe a.name b.name = true))) := by
  simp [trendLe, Bool.or_eq_true, Bool.and_eq_true, decide_eq_true_eq]

theorem trendLe_total (a b : TrendEntry) :
    trendLe a b = true ∨ trendLe b a = true := by
  rcases lt_trichotomy a.improvement b.improvement with h | h | h
  · exact Or.inr (trendLe_iff.mpr (Or.inl h))
  · rcases lt_trichotomy a.currentRank b.currentRank with h' | h' | h'
    · exact Or.inl (trendLe_iff.mpr (Or.inr ⟨h, Or.inl h'⟩))
    · rcases strLe_total a.name b.name with h'' | h''
      · exact Or.inl (trendLe_iff.mpr (Or.inr ⟨h, Or.inr ⟨h', h''⟩⟩))
      · exact Or.inr (trendLe_iff.mpr (Or.inr ⟨h.symm, Or.inr ⟨h'.symm, h''⟩⟩))
    · exact Or.inr (trendLe_iff.mpr (Or.inr ⟨h.symm, Or.inl h'⟩))
  · exact Or.inl (trendLe_iff.mpr (Or.inl h))

theorem trendLe_trans (a b c : TrendEntry)
    (h1 : trendLe a b = true) (h2 : trendLe b c = true) :
    trendLe a c = true := by
  rcases trendLe_iff.mp h1 with h1 | ⟨h1, h1'⟩ <;>
    rcases trendLe_iff.mp h2 with h2 | ⟨h2, h2'⟩
  · exact trendLe_iff.mpr (Or.inl (lt_trans h2 h1))
  · exact trendLe_iff.mpr (Or.inl (h2 ▸ h1))
  · exact trendLe_iff.mpr (Or.inl (h1 ▸ h2))
  · refine trendLe_iff.mpr (Or.inr ⟨h1.trans h2, ?_⟩)
    rcases h1' with h1' | ⟨h1', h1''⟩ <;> rcases h2' with h2' | ⟨h2', h2''⟩
    · exact Or.inl (lt_trans h1' h2')
    · exact Or.inl (h2' ▸ h1')
    · exact Or.inl (h1' ▸ h2')
    · exact Or.inr ⟨h1'.trans h2', strLe_trans h1'' h2''⟩

/-! ### Dict lookup and insertion -/

theorem alookup_dictInsert_self [DecidableEq α] (k : α) (v : β)
    (l : List (α × β)) : alookup k (dictInsert k v l) = some v := by
  induction l with
  | nil => simp [dictInsert, alookup]
  | cons p rest ih =>
    obtain ⟨k', v'⟩ := p
    simp only [dictInsert]
    by_cases h : k = k'
    · rw [if_pos h]; simp [alookup]
    · rw [if_neg h]; simp [alookup, h, ih]

theorem alookup_dictInsert_ne [DecidableEq α] {k k' : α} (h : k ≠ k')
    (v : β) (l : List (α × β)) :
    alookup k (dictInsert k' v l) = alookup k l := by
  induction l with
  | nil => simp [dictInsert, alookup, h]
  | cons p rest ih =>
    obtain ⟨k'', v''⟩ := p
    simp only [dictInsert]
    by_cases h' : k' = k''
    · rw [if_pos h']
      simp only [alookup]
      rw [if_neg h, if_neg (h' ▸ h)]
    · rw [if_neg h']
      simp only [alookup]
      by_cases h'' : k = k''
      · rw [if_pos h'', if_pos h'']
      · rw [if_neg h'', if_neg h'', ih]

theorem alookup_dictInsert_isSome [DecidableEq α] (k k' : α) (v : β)
    (l : List (α × β)) (h : (alookup k l).isSome = true) :
    (alookup k (dictInsert k' v l)).isSome = true := by
  by_cases hk : k = k'
  · rw [hk, alookup_dictInsert_self]; rfl
  · rw [alookup_dictInsert_ne hk]; exact h

/-- Effect of the parser's nested assignment on a nested lookup. -/
theorem lookupYC_ycInsert (y' : Nat) (s' n' : String) (c : Int)
    (yd : YearCountTable) (y : Nat) (s n : String) :
    lookupYC (ycInsert y' s' n' c yd) y s n =
      if y = y' ∧ s = s' ∧ n = n' then some c else lookupYC yd y s n := by
  unfold lookupYC ycInsert
  by_cases hy : y = y'
  · subst hy
    rw [alookup_dictInsert_self]
    by_cases hs : s = s'
    · subst hs
      rw [Option.getD_some, alookup_dictInsert_self, Option.getD_some]
      by_cases hn : n = n'
      · subst hn
        rw [alookup_dictInsert_self]
        simp
      · rw [alookup_dictInsert_ne hn]
        simp [hn]
    · rw [Option.getD_some, alookup_dictInsert_ne hs]
      simp [hs]
  · rw [alookup_dictInsert_ne hy]
    simp [hy]

/-! ### The parser over the record stream -/

theorem parseRecs_append (a b : List (Nat × List String)) (yd : YearCountTable) :
    parseRecs (a ++ b) yd =
      match parseRecs a yd with
      | .ok yd' => parseRecs b yd'
      | .error e => .error e := by
  induction a generalizing yd with
  | nil => simp [parseRecs]
  | cons r rest ih =>
    obtain ⟨year, row⟩ := r
    simp only [List.cons_append, parseRecs]
    cases parseRow year row yd with
    | ok yd' => exact ih yd'
    | error e => rfl

theorem parseRows_eq_parseRecs (y : Nat) (rows : List (List String))
    (yd : YearCountTable) :
    parseRows y rows yd = parseRecs (rows.map (fun r => (y, r))) yd := by
  induction rows generalizing yd with
  | nil => rfl
  | cons row rest ih =>
    simp only [parseRows, List.map_cons, parseRecs]
    cases parseRow y row yd with
    | ok yd' => exact ih yd'
    | error e => rfl

theorem parseFiles_eq_parseRecs (files : List (Nat × List (List String)))
    (yd : YearCountTable) :
    parseFiles files yd = parseRecs (flatRows files) yd := by
  induction files generalizing yd with
  | nil => rfl
  | cons f rest ih =>
    obtain ⟨y, rows⟩ := f
    have hflat : flatRows ((y, rows) :: rest) =
        rows.map (fun r => (y, r)) ++ flatRows rest := rfl
    rw [hflat, parseRecs_append]
    simp only [parseFiles]
    rw [parseRows_eq_parseRecs]
    cases parseRecs (rows.map (fun r => (y, r))) yd with
    | ok yd' => exact ih yd'
    | error e => rfl

theorem exists_getLast?_cons (q : α) (qs : List α) :
    ∃ r, (q :: qs).getLast? = some r := by
  induction qs generalizing q with
  | nil => exact ⟨q, rfl⟩
  | cons b bs ih =>
    obtain ⟨r, hr⟩ := ih b
    exact ⟨r, by rw [List.getLast?_cons_cons, hr]⟩

theorem wfRow_elim {row : List String} (h : wfRow row = true) :
    ∃ nm sx ct c, row = [nm, sx, ct] ∧ pyInt ct = some c := by
  match row with
  | [] => simp [wfRow] at h
  | [a] => simp [wfRow] at h
  | [a, b] => simp [wfRow] at h
  | a :: b :: c :: d :: rest => simp [wfRow] at h
  | [a, b, ct] =>
    cases hc : pyInt ct with
    | none => rw [wfRow, hc] at h; simp at h
    | some v => exact ⟨a, b, ct, v, rfl, hc⟩

/-- Last-seen-wins over the record stream: the parser accepts every stream of
well-formed rows, and each `(year, sex, name)` key ends up mapped to the
count of the last record carrying it (or keeps the accumulator's value if no
record carries it). -/
theorem parseRecs_last_wins (recs : List (Nat × List String))
    (acc : YearCountTable) (hwf : ∀ r ∈ recs, wfRow r.2 = true) :
    ∃ yd, parseRecs recs acc = .ok yd ∧ ∀ y s n,
      lookupYC yd y s n =
        match (recs.filter (recMatches y s n)).getLast? with
        | some r => rowCount r
        | none => lookupYC acc y s n := by
  induction recs generalizing acc with
  | nil => exact ⟨acc, rfl, fun y s n => by simp⟩
  | cons r rest ih =>
    obtain ⟨yr, row⟩ := r
    have hwfr : wfRow row = true := hwf (yr, row) (List.mem_cons_self _ _)
    obtain ⟨nm, sx, ct, c, hrow, hct⟩ := wfRow_elim hwfr
    subst hrow
    have hstep : parseRow yr [nm, sx, ct] acc = .ok (ycInsert yr sx nm c acc) := by
      simp [parseRow, hct]
    obtain ⟨yd, hok, hlook⟩ :=
      ih (ycInsert yr sx nm c acc) (fun r hr => hwf r (List.mem_cons_of_mem _ hr))
    refine ⟨yd, ?_, ?_⟩
    · simp only [parseRecs, hstep]
      exact hok
    · intro y s n
      rw [hlook y s n]
      by_cases hm : recMatches y s n (yr, [nm, sx, ct]) = true
      · have hkey : (yr = y ∧ nm = n) ∧ sx = s := by
          simpa [recMatches, Bool.and_eq_true, beq_iff_eq] using hm
        rw [List.filter_cons_of_pos hm]
        cases hfr : rest.filter (recMatches y s n) with
        | nil =>
          simp only [List.getLast?_nil, List.getLast?_singleton]
          rw [lookupYC_ycInsert,
            if_pos ⟨hkey.1.1.symm, hkey.2.symm, hkey.1.2.symm⟩]
          simp [rowCount, hct]
        | cons q qs =>
          rw [List.getLast?_cons_cons]
          obtain ⟨r', hr'⟩ := exists_getLast?_cons q qs
          rw [hr']
      · have hm' : recMatches y s n (yr, [nm, sx, ct]) = false := by
          cases h : recMatches y s n (yr, [nm, sx, ct]) with
          | true => exact absurd h hm
          | false => rfl
        rw [List.filter_cons_of_neg (by simp [hm'])]
        cases hfr : (rest.filter (recMatches y s n)).getLast? with
        | some r' => rfl
        | none =>
          show lookupYC (ycInsert yr sx nm c acc) y s n = lookupYC acc y s n
          rw [lookupYC_ycInsert, if_neg]
          rintro ⟨h1, h2, h3⟩
          have : recMatches y s n (yr, [nm, sx, ct]) = true := by
            simp [recMatches, h1, h2, h3]
          rw [this] at hm'
          exact Bool.noConfusion hm'

/-! ### Rank assignment for a single `(year, sex)` group -/

theorem sortCounts_perm (ncs : CountMap) :
    List.Perm (sortCounts ncs) ncs :=
  pySort_perm rankLe ncs

theorem pairwise_sortCounts (ncs : CountMap) :
    (sortCounts ncs).Pairwise (fun a b => rankLe a b = true) :=
  pairwise_pySort rankLe rankLe_total rankLe_trans ncs

theorem alookup_assignRanksFrom_not_mem (year start : Nat) (l : CountMap)
    (nr : NameRanks) (name : String) (h : name ∉ l.map Prod.fst) :
    alookup name (assignRanksFrom year start l nr) = alookup name nr := by
  induction l generalizing start nr with
  | nil => rfl
  | cons p rest ih =>
    obtain ⟨nm, ct⟩ := p
    rw [List.map_cons] at h
    have hne : name ≠ nm := fun he => h (he ▸ List.mem_cons_self _ _)
    have hrest : name ∉ rest.map Prod.fst := fun hm => h (List.mem_cons_of_mem _ hm)
    simp only [assignRanksFrom]
    rw [ih _ _ hrest, alookup_dictInsert_ne hne]

theorem lookupNR_assignRanksFrom_ne_year (year start : Nat) (l : CountMap)
    (nr : NameRanks) (name : String) (y : Nat) (hy : y ≠ year) :
    lookupNR (assignRanksFrom year start l nr) name y = lookupNR nr name y := by
  induction l generalizing start nr with
  | nil => rfl
  | cons p rest ih =>
    obtain ⟨nm, ct⟩ := p
    simp only [assignRanksFrom]
    rw [ih]
    unfold lookupNR
    by_cases hn : name = nm
    · subst hn
      rw [alookup_dictInsert_self]
      show alookup y (dictInsert year start ((alookup name nr).getD [])) =
        (alookup name nr).bind (alookup y)
      rw [alookup_dictInsert_ne hy]
      cases alookup name nr with
      | none => rfl
      | some m => rfl
    · rw [alookup_dictInsert_ne hn]

theorem lookupNR_assignRanksFrom_isSome (year start : Nat) (l : CountMap)
    (nr : NameRanks) (name : String) (y : Nat)
    (h : (lookupNR nr name y).isSome = true) :
    (lookupNR (assignRanksFrom year start l nr) name y).isSome = true := by
  induction l generalizing start nr with
  | nil => exact h
  | cons p rest ih =>
    obtain ⟨nm, ct⟩ := p
    simp only [assignRanksFrom]
    apply ih
    unfold lookupNR at h ⊢
    by_cases hn : name = nm
    · subst hn
      rw [alookup_dictInsert_self]
      cases hm : alookup name nr with
      | none => rw [hm] at h; simp at h
      | some m =>
        rw [hm] at h
        show (alookup y (dictInsert year start m)).isSome = true
        exact alookup_dictInsert_isSome y year start m h
    · rw [alookup_dictInsert_ne hn]
      exact h

theorem lookupNR_assignRanksFrom_mem_isSome (year start : Nat) (l : CountMap)
    (nr : NameRanks) (name : String) (h : name ∈ l.map Prod.fst) :
    (lookupNR (assignRanksFrom year start l nr) name year).isSome = true := by
  induction l generalizing start nr with
  | nil => simp at h
  | cons p rest ih =>
    obtain ⟨nm, ct⟩ := p
    simp only [assignRanksFrom]
    by_cases hn : name = nm
    · apply lookupNR_assignRanksFrom_isSome
      subst hn
      unfold lookupNR
      rw [alookup_dictInsert_self]
      show (alookup year (dictInsert year start ((alookup name nr).getD []))).isSome = true
      rw [alookup_dictInsert_self]
      rfl
    · apply ih
      rw [List.map_cons] at h
      rcases List.mem_cons.mp h with he | hm
      · exact absurd he hn
      · exact hm

/-- The heart of the rank calculator: running the enumeration loop over a
group whose names are distinct records, for the entry at position `i` of the
sorted sequence, the rank `start + i` under the processed year. -/
theorem assignRanksFrom_map (year start : Nat) (l : CountMap) (nr : NameRanks)
    (hnd : (l.map Prod.fst).Nodup) :
    l.map (fun p => lookupNR (assignRanksFrom year start l nr) p.1 year) =
      (List.range l.length).map (fun i => some (start + i)) := by
  induction l generalizing start nr with
  | nil => rfl
  | cons p rest ih =>
    obtain ⟨nm, ct⟩ := p
    rw [List.map_cons, List.nodup_cons] at hnd
    obtain ⟨hnm, hndrest⟩ := hnd
    simp only [assignRanksFrom, List.map_cons]
    have hhead :
        lookupNR
          (assignRanksFrom year (start + 1) rest
            (dictInsert nm (dictInsert year start ((alookup nm nr).getD [])) nr))
          nm year = some start := by
      unfold lookupNR
      rw [alookup_assignRanksFrom_not_mem _ _ _ _ _ hnm, alookup_dictInsert_self]
      show alookup year (dictInsert year start ((alookup nm nr).getD [])) = some start
      rw [alookup_dictInsert_self]
    rw [hhead, ih (start + 1) _ hndrest]
    rw [List.length_cons, List.range_succ_eq_map, List.map_cons, List.map_map]
    congr 1
    apply List.map_congr_left
    intro i _
    show some (start + 1 + i) = some (start + (i + 1))
    congr 1
    omega

/-! ### Propagation of group ranks through the fold of `compute_ranks` -/

theorem rankGroup_ok_cases {year : Nat} {sex : String} {ncs : CountMap}
    {rt rt' : RankTable} (h : rankGroup year sex ncs rt = .ok rt') :
    (sortCounts ncs = [] ∧ rt' = rt) ∨
      (sex = "M" ∧ rt' = { rt with M := assignRanks year (sortCounts ncs) rt.M }) ∨
      (sex = "F" ∧ rt' = { rt with F := assignRanks year (sortCounts ncs) rt.F }) := by
  unfold rankGroup at h
  by_cases he : (sortCounts ncs).isEmpty
  · rw [if_pos he] at h
    injection h with h
    exact Or.inl ⟨List.isEmpty_iff.mp he, h.symm⟩
  · rw [if_neg he] at h
    by_cases hM : sex = "M"
    · rw [if_pos hM] at h
      injection h with h
      exact Or.inr (Or.inl ⟨hM, h.symm⟩)
    · rw [if_neg hM] at h
      by_cases hF : sex = "F"
      · rw [if_pos hF] at h
        injection h with h
        exact Or.inr (Or.inr ⟨hF, h.symm⟩)
      · rw [if_neg hF] at h
        cases h

theorem lookupRank_rankGroup_frame {year : Nat} {sex : String} {ncs : CountMap}
    {rt rt' : RankTable} (h : rankGroup year sex ncs rt = .ok rt')
    (s n : String) (y : Nat) (hne : s ≠ sex ∨ y ≠ year) :
    lookupRank rt' s n y = lookupRank rt s n y := by
  rcases rankGroup_ok_cases h with ⟨_, rfl⟩ | ⟨hsex, rfl⟩ | ⟨hsex, rfl⟩
  · rfl
  · unfold lookupRank
    by_cases hsM : s = "M"
    · rw [if_pos hsM, if_pos hsM]
      have hy : y ≠ year := hne.resolve_left (fun hc => hc (hsM.trans hsex.symm))
      exact lookupNR_assignRanksFrom_ne_year year 1 _ rt.M n y hy
    · rw [if_neg hsM, if_neg hsM]
  · unfold lookupRank
    by_cases hsM : s = "M"
    · rw [if_pos hsM, if_pos hsM]
    · rw [if_neg hsM, if_neg hsM]
      by_cases hsF : s = "F"
      · rw [if_pos hsF, if_pos hsF]
        have hy : y ≠ year := hne.resolve_left (fun hc => hc (hsF.trans hsex.symm))
        exact lookupNR_assignRanksFrom_ne_year year 1 _ rt.F n y hy
      · rw [if_neg hsF, if_neg hsF]

theorem lookupRank_rankGroup_hit {year : Nat} {sex : String} {ncs : CountMap}
    {rt rt' : RankTable} (h : rankGroup year sex ncs rt = .ok rt')
    (hnd : (ncs.map Prod.fst).Nodup) :
    (sortCounts ncs).map (fun p => lookupRank rt' sex p.1 year) =
      (List.range ncs.length).map (fun i => some (i + 1)) := by
  have hndsort : ((sortCounts ncs).map Prod.fst).Nodup :=
    (((sortCounts_perm ncs).map Prod.fst).nodup_iff).mpr hnd
  have hlen : (sortCounts ncs).length = ncs.length :=
    (sortCounts_perm ncs).length_eq
  have hcomm : ∀ (nrm : NameRanks),
      (sortCounts ncs).map
          (fun p => lookupNR (assignRanksFrom year 1 (sortCounts ncs) nrm) p.1 year) =
        (List.range ncs.length).map (fun i => some (i + 1)) := by
    intro nrm
    rw [assignRanksFrom_map year 1 _ nrm hndsort, hlen]
    apply List.map_congr_left
    intro i _
    rw [Nat.add_comm]
  rcases rankGroup_ok_cases h with ⟨hnil, rfl⟩ | ⟨hsex, rfl⟩ | ⟨hsex, rfl⟩
  · have hperm : List.Perm ([] : CountMap) ncs := by
      rw [← hnil]
      exact sortCounts_perm ncs
    have : ncs = [] := hperm.nil_eq.symm
    rw [hnil, this]
    rfl
  · subst hsex
    have := hcomm rt.M
    simpa [lookupRank, assignRanks] using this
  · subst hsex
    have := hcomm rt.F
    simpa [lookupRank, assignRanks] using this

theorem lookupRank_rankSexes_frame {year : Nat} {sd : SexMap}
    {rt rt' : RankTable} (h : rankSexes year sd rt = .ok rt')
    (s n : String) (y : Nat)
    (hcond : y ≠ year ∨ ∀ q ∈ sd, q.1 ≠ s) :
    lookupRank rt' s n y = lookupRank rt s n y := by
  induction sd generalizing rt with
  | nil =>
    injection h with h
    rw [h]
  | cons g rest ih =>
    obtain ⟨sx, ncs⟩ := g
    simp only [rankSexes] at h
    cases hg : rankGroup year sx ncs rt with
    | error e => rw [hg] at h; cases h
    | ok rt1 =>
      rw [hg] at h
      have hcond' : y ≠ year ∨ ∀ q ∈ rest, q.1 ≠ s := by
        rcases hcond with hy | hall
        · exact Or.inl hy
        · exact Or.inr (fun q hq => hall q (List.mem_cons_of_mem _ hq))
      rw [ih h hcond']
      apply lookupRank_rankGroup_frame hg
      rcases hcond with hy | hall
      · exact Or.inr hy
      · exact Or.inl (fun hc => hall (sx, ncs) (List.mem_cons_self _ _) (hc ▸ rfl))

theorem lookupRank_rankSexes_hit {year : Nat} {sd : SexMap}
    {rt rt' : RankTable} (h : rankSexes year sd rt = .ok rt')
    (hndsex : (sd.map Prod.fst).Nodup) {sex : String} {ncs : CountMap}
    (hmem : (sex, ncs) ∈ sd) (hnd : (ncs.map Prod.fst).Nodup) :
    (sortCounts ncs).map (fun p => lookupRank rt' sex p.1 year) =
      (List.range ncs.length).map (fun i => some (i + 1)) := by
  induction sd generalizing rt with
  | nil => simp at hmem
  | cons g rest ih =>
    obtain ⟨sx, ncs'⟩ := g
    simp only [rankSexes] at h
    cases hg : rankGroup year sx ncs' rt with
    | error e => rw [hg] at h; cases h
    | ok rt1 =>
      rw [hg] at h
      rw [List.map_cons, List.nodup_cons] at hndsex
      obtain ⟨hsx, hndrest⟩ := hndsex
      rcases List.mem_cons.mp hmem with heq | hmem'
      · injection heq with h1 h2
        subst h1
        subst h2
        have hmap := lookupRank_rankGroup_hit hg hnd
        have hrest : ∀ q ∈ rest, q.1 ≠ sex := by
          intro q hq hc
          have hmm : q.1 ∈ rest.map Prod.fst := List.mem_map_of_mem Prod.fst hq
          rw [hc] at hmm
          exact hsx hmm
        have hframe : ∀ p ∈ sortCounts ncs,
            lookupRank rt' sex p.1 year = lookupRank rt1 sex p.1 year :=
          fun p _ => lookupRank_rankSexes_frame h sex p.1 year (Or.inr hrest)
        rw [List.map_congr_left hframe]
        exact hmap
      · exact ih h hndrest hmem'

theorem lookupRank_crAux_frame {yd : YearCountTable} {rt rt' : RankTable}
    (h : compute_ranks_aux yd rt = .ok rt') (s n : String) (y : Nat)
    (hy : ∀ q ∈ yd, q.1 ≠ y) :
    lookupRank rt' s n y = lookupRank rt s n y := by
  induction yd generalizing rt with
  | nil =>
    injection h with h
    rw [h]
  | cons p rest ih =>
    obtain ⟨yr, sd⟩ := p
    simp only [compute_ranks_aux] at h
    cases hg : rankSexes yr sd rt with
    | error e => rw [hg] at h; cases h
    | ok rt1 =>
      rw [hg] at h
      rw [ih h (fun q hq => hy q (List.mem_cons_of_mem _ hq))]
      apply lookupRank_rankSexes_frame hg
      exact Or.inl (Ne.symm (hy (yr, sd) (List.mem_cons_self _ _)))

theorem lookupRank_crAux_hit {yd : YearCountTable} {rt rt' : RankTable}
    (h : compute_ranks_aux yd rt = .ok rt')
    (hndy : (yd.map Prod.fst).Nodup) {year : Nat} {sd : SexMap}
    (hmem : (year, sd) ∈ yd) (hndsex : (sd.map Prod.fst).Nodup)
    {sex : String} {ncs : CountMap} (hmems : (sex, ncs) ∈ sd)
    (hnd : (ncs.map Prod.fst).Nodup) :
    (sortCounts ncs).map (fun p => lookupRank rt' sex p.1 year) =
      (List.range ncs.length).map (fun i => some (i + 1)) := by
  induction yd generalizing rt with
  | nil => simp at hmem
  | cons p rest ih =>
    obtain ⟨yr, sd'⟩ := p
    simp only [compute_ranks_aux] at h
    cases hg : rankSexes yr sd' rt with
    | error e => rw [hg] at h; cases h
    | ok rt1 =>
      rw [hg] at h
      rw [List.map_cons, List.nodup_cons] at hndy
      obtain ⟨hyr, hndrest⟩ := hndy
      rcases List.mem_cons.mp hmem with heq | hmem'
      · injection heq with h1 h2
        subst h1
        subst h2
        have hmap := lookupRank_rankSexes_hit hg hndsex hmems hnd
        have hrest : ∀ q ∈ rest, q.1 ≠ year := by
          intro q hq hc
          have hmm : q.1 ∈ rest.map Prod.fst := List.mem_map_of_mem Prod.fst hq
          rw [hc] at hmm
          exact hyr hmm
        have hframe : ∀ p ∈ sortCounts ncs,
            lookupRank rt' sex p.1 year = lookupRank rt1 sex p.1 year :=
          fun p _ => lookupRank_crAux_frame h sex p.1 year hrest
        rw [List.map_congr_left hframe]
        exact hmap
      · exact ih h hndrest hmem'

/-! ### Success and completeness of `compute_ranks` on two-sex tables -/

theorem rankGroup_MF {year : Nat} {sex : String} (ncs : CountMap)
    (hMF : sex = "M" ∨ sex = "F") (rt : RankTable) :
    ∃ rt', rankGroup year sex ncs rt = .ok rt' ∧
      (∀ s n y, (lookupRank rt s n y).isSome = true →
        (lookupRank rt' s n y).isSome = true) ∧
      (∀ e ∈ ncs, (lookupRank rt' sex e.1 year).isSome = true) := by
  by_cases he : (sortCounts ncs).isEmpty
  · refine ⟨rt, ?_, fun s n y hs => hs, ?_⟩
    · unfold rankGroup
      rw [if_pos he]
    · intro e hmem
      have : ncs = [] := by
        have hperm : List.Perm ([] : CountMap) ncs := by
          rw [← List.isEmpty_iff.mp he]
          exact sortCounts_perm ncs
        exact hperm.nil_eq.symm
      rw [this] at hmem
      simp at hmem
  · rcases hMF with hsex | hsex
    · subst hsex
      refine ⟨{ rt with M := assignRanks year (sortCounts ncs) rt.M }, ?_, ?_, ?_⟩
      · unfold rankGroup
        rw [if_neg he, if_pos rfl]
      · intro s n y hs
        unfold lookupRank at hs ⊢
        by_cases hsM : s = "M"
        · rw [if_pos hsM] at hs ⊢
          exact lookupNR_assignRanksFrom_isSome year 1 _ rt.M n y hs
        · rw [if_neg hsM] at hs ⊢
          exact hs
      · intro e hmem
        unfold lookupRank
        rw [if_pos rfl]
        apply lookupNR_assignRanksFrom_mem_isSome
        exact List.mem_map_of_mem Prod.fst ((sortCounts_perm ncs).mem_iff.mpr hmem)
    · subst hsex
      refine ⟨{ rt with F := assignRanks year (sortCounts ncs) rt.F }, ?_, ?_, ?_⟩
      · unfold rankGroup
        rw [if_neg he]
        rfl
      · intro s n y hs
        unfold lookupRank at hs ⊢
        by_cases hsM : s = "M"
        · rw [if_pos hsM] at hs ⊢
          exact hs
        · rw [if_neg hsM] at hs ⊢
          by_cases hsF : s = "F"
          · rw [if_pos hsF] at hs ⊢
            exact lookupNR_assignRanksFrom_isSome year 1 _ rt.F n y hs
          · rw [if_neg hsF] at hs ⊢
            exact hs
      · intro e hmem
        unfold lookupRank
        rw [if_neg (by decide), if_pos rfl]
        apply lookupNR_assignRanksFrom_mem_isSome
        exact List.mem_map_of_mem Prod.fst ((sortCounts_perm ncs).mem_iff.mpr hmem)

theorem rankSexes_MF {year : Nat} {sd : SexMap}
    (hMF : ∀ q ∈ sd, q.1 = "M" ∨ q.1 = "F") (rt : RankTable) :
    ∃ rt', rankSexes year sd rt = .ok rt' ∧
      (∀ s n y, (lookupRank rt s n y).isSome = true →
        (lookupRank rt' s n y).isSome = true) ∧
      (∀ q ∈ sd, ∀ e ∈ q.2, (lookupRank rt' q.1 e.1 year).isSome = true) := by
  induction sd generalizing rt with
  | nil => exact ⟨rt, rfl, fun s n y hs => hs, by simp⟩
  | cons g rest ih =>
    obtain ⟨sx, ncs⟩ := g
    obtain ⟨rt1, hok1, hpres1, hhit1⟩ :=
      @rankGroup_MF year sx ncs (hMF (sx, ncs) (List.mem_cons_self _ _)) rt
    obtain ⟨rt', hok, hpres, hhit⟩ :=
      ih (fun q hq => hMF q (List.mem_cons_of_mem _ hq)) rt1
    refine ⟨rt', ?_, fun s n y hs => hpres s n y (hpres1 s n y hs), ?_⟩
    · simp only [rankSexes, hok1]
      exact hok
    · intro q hq e he
      rcases List.mem_cons.mp hq with heq | hq'
      · subst heq
        exact hpres _ _ _ (hhit1 e he)
      · exact hhit q hq' e he

theorem crAux_MF {yd : YearCountTable}
    (hMF : ∀ p ∈ yd, ∀ q ∈ p.2, q.1 = "M" ∨ q.1 = "F") (rt : RankTable) :
    ∃ rt', compute_ranks_aux yd rt = .ok rt' ∧
      (∀ s n y, (lookupRank rt s n y).isSome = true →
        (lookupRank rt' s n y).isSome = true) ∧
      (∀ p ∈ yd, ∀ q ∈ p.2, ∀ e ∈ q.2,
        (lookupRank rt' q.1 e.1 p.1).isSome = true) := by
  induction yd generalizing rt with
  | nil => exact ⟨rt, rfl, fun s n y hs => hs, by simp⟩
  | cons f rest ih =>
    obtain ⟨yr, sd⟩ := f
    obtain ⟨rt1, hok1, hpres1, hhit1⟩ :=
      @rankSexes_MF yr sd (hMF (yr, sd) (List.mem_cons_self _ _)) rt
    obtain ⟨rt', hok, hpres, hhit⟩ :=
      ih (fun p hp => hMF p (List.mem_cons_of_mem _ hp)) rt1
    refine ⟨rt', ?_, fun s n y hs => hpres s n y (hpres1 s n y hs), ?_⟩
    · simp only [compute_ranks_aux, hok1]
      exact hok
    · intro p hp q hq e he
      rcases List.mem_cons.mp hp with heq | hp'
      · subst heq
        exact hpres _ _ _ (hhit1 q hq e he)
      · exact hhit p hp' q hq e he

/-! ### Trend-selector helper lemmas -/

theorem charListLe_refl (l : List Char) : charListLe l l = true := by
  induction l with
  | nil => rfl
  | cons x xs ih =>
    simp only [charListLe]
    rw [if_neg (lt_irrefl x), if_neg (lt_irrefl x)]
    exact ih

theorem strLe_refl (a : String) : strLe a a = true :=
  charListLe_refl a.data

theorem calculate_trending_of_years {rt : RankTable}
    (h : 2 ≤ (allYears rt).dedup.length) (n : Int) :
    calculate_trending rt n = pySliceTo n (pySort trendLe (trendCandidates rt)) := by
  unfold calculate_trending
  rw [if_neg (by omega)]

theorem calculate_trending_few_years {rt : RankTable}
    (h : (allYears rt).dedup.length < 2) (n : Int) :
    calculate_trending rt n = [] := by
  unfold calculate_trending
  rw [if_pos h]

theorem pySliceTo_natCast (n : Nat) (l : List α) :
    pySliceTo (n : Int) l = l.take n := by
  unfold pySliceTo
  rw [if_pos (Int.natCast_nonneg n), Int.toNat_natCast]

theorem pySliceTo_eq_take (n : Int) (l : List α) :
    ∃ m, pySliceTo n l = l.take m := by
  unfold pySliceTo
  by_cases h : 0 ≤ n
  · rw [if_pos h]
    exact ⟨n.toNat, rfl⟩
  · rw [if_neg h]
    exact ⟨((l.length : Int) + n).toNat, rfl⟩

theorem mem_pySliceTo {n : Int} {l : List α} {a : α}
    (h : a ∈ pySliceTo n l) : a ∈ l := by
  obtain ⟨m, hm⟩ := pySliceTo_eq_take n l
  rw [hm] at h
  exact List.take_subset m l h

theorem filter_take_append (p : α → Bool) (l : List α) (m : Nat) :
    l.filter p = (l.take m).filter p ++ (l.drop m).filter p := by
  conv_lhs => rw [← List.take_append_drop m l]
  rw [List.filter_append]

theorem mem_candidatesFor {sex : String} {ly py : Nat} {nr : NameRanks}
    {e : TrendEntry} :
    e ∈ candidatesFor sex ly py nr ↔
      ∃ yr, (e.name, yr) ∈ nr ∧ alookup ly yr = some e.currentRank ∧
        alookup py yr = some e.prevRank ∧ e.sex = sex ∧
        e.improvement = (e.prevRank : Int) - (e.currentRank : Int) := by
  obtain ⟨nm, sx, cr, pr, imp⟩ := e
  unfold candidatesFor
  rw [List.mem_filterMap]
  constructor
  · rintro ⟨p, hp, hfp⟩
    cases hcr : alookup ly p.2 with
    | none => rw [hcr] at hfp; cases hfp
    | some cr' =>
      cases hpr : alookup py p.2 with
      | none => rw [hcr, hpr] at hfp; cases hfp
      | some pr' =>
        rw [hcr, hpr] at hfp
        injection hfp with hfp
        injection hfp with h1 h2 h3 h4 h5
        subst h1
        subst h2
        subst h3
        subst h4
        exact ⟨p.2, by simpa using hp, hcr, hpr, rfl, h5.symm⟩
  · rintro ⟨yr, hmem, hcr, hpr, hsex, himp⟩
    refine ⟨(nm, yr), hmem, ?_⟩
    simp only at hcr hpr hsex himp
    simp only [hcr, hpr]
    rw [hsex, himp]

theorem sex_of_mem_candidatesFor {sex : String} {ly py : Nat} {nr : NameRanks}
    {e : TrendEntry} (h : e ∈ candidatesFor sex ly py nr) : e.sex = sex :=
  (mem_candidatesFor.mp h).choose_spec.2.2.2.1

theorem trendLe_of_key_eq {a b : TrendEntry}
    (h : trendSortKey a = trendSortKey b) : trendLe a b = true := by
  unfold trendSortKey at h
  injection h with h1 h
  injection h with h2 h3
  apply trendLe_iff.mpr
  refine Or.inr ⟨by omega, Or.inr ⟨h2, ?_⟩⟩
  rw [h3]
  exact strLe_refl b.name

/-- Reading one position out of the rank map of a group: if the lookups over
the sorted group enumerate `1, 2, ...`, the entry at position `i` has rank
`i + 1`. -/
theorem rank_of_get {l : CountMap} {f : String × Int → Option Nat} {K : Nat}
    (hmap : l.map (fun p => f p) = (List.range K).map (fun i => some (i + 1)))
    (i : Fin l.length) : f (l.get i) = some (i.1 + 1) := by
  have hi1 : i.1 < (l.map (fun p => f p)).length := by simp [i.2]
  have hgete := List.getElem_of_eq hmap hi1
  rw [List.getElem_map, List.getElem_map, List.getElem_range] at hgete
  simpa [List.get_eq_getElem] using hgete

/-! ### The claims -/

/-- C1: for every rank table with at least two distinct years, the trend
list returned by `calculate_trending` is the candidate list sorted by
improvement descending, then current rank (rank at the last year) ascending,
then name ascending, truncated to the first `n` entries after sorting: the
returned list is `take n` of a permutation of the candidate list that is
pairwise ordered by exactly those three keys. -/
theorem C1_sorted_truncation (rt : RankTable) (n : Nat)
    (h : 2 ≤ (allYears rt).dedup.length) :
    calculate_trending rt (n : Int) =
        (pySort trendLe (trendCandidates rt)).take n ∧
      List.Perm (pySort trendLe (trendCandidates rt)) (trendCandidates rt) ∧
      (pySort trendLe (trendCandidates rt)).Pairwise (fun a b =>
        b.improvement < a.improvement ∨
          (a.improvement = b.improvement ∧
            (a.currentRank < b.currentRank ∨
              (a.currentRank = b.currentRank ∧ strLe a.name b.name = true)))) := by
  refine ⟨?_, pySort_perm _ _, ?_⟩
  · rw [calculate_trending_of_years h, pySliceTo_natCast]
  · exact (pairwise_pySort trendLe trendLe_total trendLe_trans _).imp
      (fun hab => trendLe_iff.mp hab)

theorem C1_witness :
    2 ≤ (allYears rtW).dedup.length ∧
      (calculate_trending rtW ((10 : Nat) : Int) =
          (pySort trendLe (trendCandidates rtW)).take 10 ∧
        List.Perm (pySort trendLe (trendCandidates rtW)) (trendCandidates rtW) ∧
        (pySort trendLe (trendCandidates rtW)).Pairwise (fun a b =>
          b.improvement < a.improvement ∨
            (a.improvement = b.improvement ∧
              (a.currentRank < b.currentRank ∨
                (a.currentRank = b.currentRank ∧ strLe a.name b.name = true))))) :=
  ⟨by decide, C1_sorted_truncation rtW 10 (by decide)⟩

/-- C2: for every rank table (with two comparison years so the candidate
stage is reached), a `(name, sex)` pair contributes a trend entry exactly
when that name's rank mapping for that sex contains entries for both the
last and the previous comparison year, and its improvement is then
`rank[prevYear] - rank[lastYear]`; every entry of the returned trend list is
a candidate, so a name missing either year never appears in it. -/
theorem C2_membership (rt : RankTable) (n : Int) (e : TrendEntry)
    (h2 : 2 ≤ (allYears rt).dedup.length) :
    (e ∈ trendCandidates rt ↔
      ∃ nr yr, ((e.sex = "M" ∧ nr = rt.M) ∨ (e.sex = "F" ∧ nr = rt.F)) ∧
        (e.name, yr) ∈ nr ∧
        alookup (lastYear rt) yr = some e.currentRank ∧
        alookup (prevYear rt) yr = some e.prevRank ∧
        e.improvement = (e.prevRank : Int) - (e.currentRank : Int)) ∧
    (e ∈ calculate_trending rt n → e ∈ trendCandidates rt) := by
  constructor
  · unfold trendCandidates
    rw [List.mem_append]
    constructor
    · rintro (hM | hF)
      · obtain ⟨yr, hmem, hcr, hpr, hsex, himp⟩ := mem_candidatesFor.mp hM
        exact ⟨rt.M, yr, Or.inl ⟨hsex, rfl⟩, hmem, hcr, hpr, himp⟩
      · obtain ⟨yr, hmem, hcr, hpr, hsex, himp⟩ := mem_candidatesFor.mp hF
        exact ⟨rt.F, yr, Or.inr ⟨hsex, rfl⟩, hmem, hcr, hpr, himp⟩
    · rintro ⟨nr, yr, (⟨hsex, rfl⟩ | ⟨hsex, rfl⟩), hmem, hcr, hpr, himp⟩
      · exact Or.inl (mem_candidatesFor.mpr ⟨yr, hmem, hcr, hpr, hsex, himp⟩)
      · exact Or.inr (mem_candidatesFor.mpr ⟨yr, hmem, hcr, hpr, hsex, himp⟩)
  · intro hmem
    rw [calculate_trending_of_years h2 n] at hmem
    exact (pySort_perm trendLe (trendCandidates rt)).mem_iff.mp (mem_pySliceTo hmem)

theorem C2_witness :
    2 ≤ (allYears rtW).dedup.length ∧
      ((eSam ∈ trendCandidates rtW ↔
        ∃ nr yr,
          ((eSam.sex = "M" ∧ nr = rtW.M) ∨ (eSam.sex = "F" ∧ nr = rtW.F)) ∧
          (eSam.name, yr) ∈ nr ∧
          alookup (lastYear rtW) yr = some eSam.currentRank ∧
          alookup (prevYear rtW) yr = some eSam.prevRank ∧
          eSam.improvement = (eSam.prevRank : Int) - (eSam.currentRank : Int)) ∧
        (eSam ∈ calculate_trending rtW 10 → eSam ∈ trendCandidates rtW)) :=
  ⟨by decide, C2_membership rtW 10 eSam (by decide)⟩

/-- C5: whenever fewer than two distinct years appear anywhere in the rank
table (across both sexes and all names), `calculate_trending` returns the
empty list for any requested count, and being a total function it raises no
error. -/
theorem C5_insufficient_history (rt : RankTable) (n : Int)
    (h : (allYears rt).dedup.length < 2) :
    calculate_trending rt n = [] :=
  calculate_trending_few_years h n

theorem C5_witness :
    (allYears rt5).dedup.length < 2 ∧ calculate_trending rt5 100 = [] :=
  ⟨by decide, C5_insufficient_history rt5 100 (by decide)⟩

/-- C9: on the empty year-count table `compute_ranks` succeeds and returns
the empty rank table, which contains no `(sex, name, year)` rank entry at
all. -/
theorem C9_empty_table :
    compute_ranks [] = .ok (⟨[], []⟩ : RankTable) ∧
      ∀ (s n : String) (y : Nat), lookupRank ⟨[], []⟩ s n y = none := by
  refine ⟨rfl, ?_⟩
  intro s n y
  unfold lookupRank
  by_cases hsM : s = "M"
  · rw [if_pos hsM]
    rfl
  · rw [if_neg hsM]
    by_cases hsF : s = "F"
    · rw [if_pos hsF]
      rfl
    · rw [if_neg hsF]

/-- C10: the candidate generation emits all `"M"` entries before all `"F"`
entries and the sort key omits the sex, so among returned entries whose
three sort keys agree — which is only possible for the same name qualifying
under both sexes — every `"M"` entry precedes every `"F"` entry: for each
key value, the key-equal entries of the returned list form an initial
segment of (key-equal `"M"` candidates in order) ++ (key-equal `"F"`
candidates in order). -/
theorem C10_stable_sex_order (rt : RankTable) (n : Int) (k : Int × Nat × String) :
    (∀ e ∈ candidatesFor "M" (lastYear rt) (prevYear rt) rt.M, e.sex = "M") ∧
    (∀ e ∈ candidatesFor "F" (lastYear rt) (prevYear rt) rt.F, e.sex = "F") ∧
    ∃ t,
      (candidatesFor "M" (lastYear rt) (prevYear rt) rt.M).filter
          (fun e => decide (trendSortKey e = k)) ++
        (candidatesFor "F" (lastYear rt) (prevYear rt) rt.F).filter
          (fun e => decide (trendSortKey e = k)) =
      (calculate_trending rt n).filter (fun e => decide (trendSortKey e = k)) ++ t := by
  refine ⟨fun e he => sex_of_mem_candidatesFor he,
    fun e he => sex_of_mem_candidatesFor he, ?_⟩
  have hpk : ∀ a b, decide (trendSortKey a = k) = true →
      decide (trendSortKey b = k) = true → trendLe a b = true := by
    intro a b ha hb
    exact trendLe_of_key_eq ((of_decide_eq_true ha).trans (of_decide_eq_true hb).symm)
  have hMF :
      (candidatesFor "M" (lastYear rt) (prevYear rt) rt.M).filter
          (fun e => decide (trendSortKey e = k)) ++
        (candidatesFor "F" (lastYear rt) (prevYear rt) rt.F).filter
          (fun e => decide (trendSortKey e = k)) =
      (trendCandidates rt).filter (fun e => decide (trendSortKey e = k)) :=
    (List.filter_append _ _).symm
  by_cases hy : (allYears rt).dedup.length < 2
  · refine ⟨(trendCandidates rt).filter (fun e => decide (trendSortKey e = k)), ?_⟩
    rw [calculate_trending_few_years hy n, List.filter_nil, List.nil_append]
    exact hMF
  · obtain ⟨m, hm⟩ := pySliceTo_eq_take n (pySort trendLe (trendCandidates rt))
    refine ⟨((pySort trendLe (trendCandidates rt)).drop m).filter
      (fun e => decide (trendSortKey e = k)), ?_⟩
    rw [calculate_trending_of_years (by omega) n, hm,
      ← filter_take_append _ (pySort trendLe (trendCandidates rt)) m,
      pySort_filter_stable trendLe _ hpk]
    exact hMF

/-- C3: for every year-count table (with the dict invariants: unique years,
unique sexes per year, unique names per group) on which `compute_ranks`
succeeds, every `(year, sex)` group with `K` distinct names receives exactly
the set of ranks `{1, ..., K}` — the multiset of rank lookups over the
group's names is a permutation of `some 1, ..., some K` — with no duplicates
and no gaps, even when counts are equal. -/
theorem C3_dense_ranks (yd : YearCountTable) (rt : RankTable)
    (year : Nat) (sd : SexMap) (sex : String) (ncs : CountMap)
    (hok : compute_ranks yd = .ok rt)
    (hndy : (yd.map Prod.fst).Nodup)
    (hmem : (year, sd) ∈ yd)
    (hndsex : (sd.map Prod.fst).Nodup)
    (hmems : (sex, ncs) ∈ sd)
    (hnd : (ncs.map Prod.fst).Nodup) :
    List.Perm (ncs.map (fun p => lookupRank rt sex p.1 year))
      ((List.range ncs.length).map (fun i => some (i + 1))) := by
  have hmap := lookupRank_crAux_hit hok hndy hmem hndsex hmems hnd
  have hperm :=
    (sortCounts_perm ncs).symm.map (fun p => lookupRank rt sex p.1 year)
  rw [hmap] at hperm
  exact hperm

theorem C3_witness :
    (compute_ranks ydW = .ok rtW ∧ (ydW.map Prod.fst).Nodup ∧
      (2000, sdW) ∈ ydW ∧ (sdW.map Prod.fst).Nodup ∧
      ("M", ncsW) ∈ sdW ∧ (ncsW.map Prod.fst).Nodup) ∧
    List.Perm (ncsW.map (fun p => lookupRank rtW "M" p.1 2000))
      ((List.range ncsW.length).map (fun i => some (i + 1))) :=
  ⟨⟨by rfl, by decide, by decide, by decide, by decide, by decide⟩,
    C3_dense_ranks ydW rtW 2000 sdW "M" ncsW (by rfl) (by decide)
      (by decide) (by decide) (by decide) (by decide)⟩

/-- C4: within any `(year, sex)` group (under the dict invariants), the rank
calculator orders names by count descending with ties broken by name
ascending in codepoint-lexicographic order: for two distinct names of the
group with recorded ranks, the rank of the first is smaller exactly when its
count is larger, or the counts are equal and its name is lexicographically
smaller. -/
theorem C4_tiebreak (yd : YearCountTable) (rt : RankTable)
    (year : Nat) (sd : SexMap) (sex : String) (ncs : CountMap)
    (n1 n2 : String) (c1 c2 : Int) (r1 r2 : Nat)
    (hok : compute_ranks yd = .ok rt)
    (hndy : (yd.map Prod.fst).Nodup)
    (hmem : (year, sd) ∈ yd)
    (hndsex : (sd.map Prod.fst).Nodup)
    (hmems : (sex, ncs) ∈ sd)
    (hnd : (ncs.map Prod.fst).Nodup)
    (h1 : (n1, c1) ∈ ncs) (h2 : (n2, c2) ∈ ncs) (hne : n1 ≠ n2)
    (hr1 : lookupRank rt sex n1 year = some r1)
    (hr2 : lookupRank rt sex n2 year = some r2) :
    r1 < r2 ↔ (c2 < c1 ∨ (c1 = c2 ∧ strLt n1 n2 = true)) := by
  have hmap := lookupRank_crAux_hit hok hndy hmem hndsex hmems hnd
  obtain ⟨i1, hget1⟩ :=
    List.mem_iff_get.mp ((sortCounts_perm ncs).mem_iff.mpr h1)
  obtain ⟨i2, hget2⟩ :=
    List.mem_iff_get.mp ((sortCounts_perm ncs).mem_iff.mpr h2)
  have hv1 := rank_of_get hmap i1
  rw [hget1] at hv1
  have hv2 := rank_of_get hmap i2
  rw [hget2] at hv2
  have hr1' : r1 = i1.1 + 1 := by
    have := hr1.symm.trans hv1
    exact Option.some.inj this
  have hr2' : r2 = i2.1 + 1 := by
    have := hr2.symm.trans hv2
    exact Option.some.inj this
  have hpw := pairwise_sortCounts ncs
  rw [List.pairwise_iff_get] at hpw
  have forward : ∀ (i j : Fin (sortCounts ncs).length) (nm1 nm2 : String)
      (d1 d2 : Int), (sortCounts ncs).get i = (nm1, d1) →
      (sortCounts ncs).get j = (nm2, d2) → nm1 ≠ nm2 → i < j →
      (d2 < d1 ∨ (d1 = d2 ∧ strLt nm1 nm2 = true)) := by
    intro i j nm1 nm2 d1 d2 hgi hgj hnm hij
    have hle := hpw i j hij
    rw [hgi, hgj] at hle
    rcases rankLe_iff.mp hle with h | ⟨h, h'⟩
    · exact Or.inl h
    · refine Or.inr ⟨h, ?_⟩
      rw [strLt_iff_not_le]
      intro hba
      exact hnm (strLe_antisymm h' hba)
  constructor
  · intro hlt
    have hij : i1 < i2 := by
      rw [hr1', hr2'] at hlt
      exact Fin.mk_lt_mk.mpr (by omega)
    exact forward i1 i2 n1 n2 c1 c2 hget1 hget2 hne hij
  · intro hkey
    rcases lt_trichotomy i1.1 i2.1 with hij | hij | hij
    · rw [hr1', hr2']
      omega
    · exfalso
      have : i1 = i2 := Fin.ext hij
      rw [this, hget2] at hget1
      injection hget1 with he _
      exact hne he.symm
    · exfalso
      have hback := forward i2 i1 n2 n1 c2 c1 hget2 hget1 (Ne.symm hne)
        (Fin.mk_lt_mk.mpr (by omega))
      rcases hkey with hk | ⟨hk, hk'⟩ <;> rcases hback with hb | ⟨hb, hb'⟩
      · omega
      · omega
      · omega
      · rw [strLt_iff_not_le] at hk' hb'
        rcases strLe_total n1 n2 with h | h
        · exact hb' h
        · exact hk' h

theorem C4_witness :
    (compute_ranks ydW = .ok rtW ∧ (ydW.map Prod.fst).Nodup ∧
      (2000, sdW) ∈ ydW ∧ (sdW.map Prod.fst).Nodup ∧
      ("M", ncsW) ∈ sdW ∧ (ncsW.map Prod.fst).Nodup ∧
      ("Alex", (5 : Int)) ∈ ncsW ∧ ("Sam", (5 : Int)) ∈ ncsW ∧
      lookupRank rtW "M" "Alex" 2000 = some 1 ∧
      lookupRank rtW "M" "Sam" 2000 = some 2) ∧
    (1 < 2 ↔ ((5 : Int) < 5 ∨ ((5 : Int) = 5 ∧ strLt "Alex" "Sam" = true))) :=
  ⟨⟨by rfl, by decide, by decide, by decide, by decide, by decide,
      by decide, by decide, by rfl, by rfl⟩,
    C4_tiebreak ydW rtW 2000 sdW "M" ncsW "Alex" "Sam" 5 5 1 2 (by rfl)
      (by decide) (by decide) (by decide) (by decide) (by decide)
      (by decide) (by decide) (by decide) (by rfl) (by rfl)⟩

/-- C6, counterexample: the parser stores a sex code verbatim, but
`compute_ranks` indexes the literal dict `{"M": ..., "F": ...}` with it, so
on a table containing a nonempty group under sex `"X"` the rank calculator
raises `KeyError` instead of succeeding — the claim that it has no failure
modes beyond the parser's is false. -/
theorem C6_counterexample : compute_ranks ydX = .error "KeyError: X" := rfl

/-- C6, amended: the rank calculator succeeds on every year-count table all
of whose sex codes are `"M"` or `"F"` (the only codes in the real dataset),
and then records a rank under `ranks[sex][name][year]` for every
`(year, sex, name)` present; for a table with a nonempty group under any
other sex code it raises `KeyError`. -/
theorem C6_amended (yd : YearCountTable)
    (hMF : ∀ p ∈ yd, ∀ q ∈ p.2, q.1 = "M" ∨ q.1 = "F") :
    ∃ rt, compute_ranks yd = .ok rt ∧
      ∀ p ∈ yd, ∀ q ∈ p.2, ∀ e ∈ q.2,
        (lookupRank rt q.1 e.1 p.1).isSome = true := by
  obtain ⟨rt, hok, _, hhit⟩ := crAux_MF hMF ⟨[], []⟩
  exact ⟨rt, hok, hhit⟩

theorem C6_witness :
    (∀ p ∈ ydW, ∀ q ∈ p.2, q.1 = "M" ∨ q.1 = "F") ∧
      ∃ rt, compute_ranks ydW = .ok rt ∧
        ∀ p ∈ ydW, ∀ q ∈ p.2, ∀ e ∈ q.2,
          (lookupRank rt q.1 e.1 p.1).isSome = true :=
  ⟨by decide, C6_amended ydW (by decide)⟩

/-- C7, counterexample: `trending_list[:top_n]` follows Python slice
semantics, so a negative requested count does not give an empty list — on a
table with two qualifying candidates, `top_n = -1` returns one entry (all
but the last), contradicting the claim that every `N ≤ 0` yields an empty
trend list. -/
theorem C7_counterexample :
    calculate_trending rt7 (-1) =
        [⟨"Sam", "M", 1, 2, 1⟩] ∧
      calculate_trending rt7 (-1) ≠ [] :=
  ⟨rfl, by decide⟩

/-- C7, amended: a requested count of exactly `0` yields an empty trend
list; a negative count follows Python slice semantics and returns the sorted
candidates with the last `|N|` entries dropped, which is non-empty whenever
more than `|N|` candidates qualify. -/
theorem C7_amended (rt : RankTable) (n : Int) (h : n ≤ 0) :
    calculate_trending rt n = [] ∨
      (n < 0 ∧ 2 ≤ (allYears rt).dedup.length ∧
        calculate_trending rt n =
          (pySort trendLe (trendCandidates rt)).take
            (((trendCandidates rt).length : Int) + n).toNat) := by
  by_cases hy : (allYears rt).dedup.length < 2
  · exact Or.inl (calculate_trending_few_years hy n)
  · by_cases hn : n = 0
    · subst hn
      left
      rw [calculate_trending_of_years (by omega) 0]
      unfold pySliceTo
      rw [if_pos le_rfl]
      rfl
    · right
      refine ⟨by omega, by omega, ?_⟩
      rw [calculate_trending_of_years (by omega) n]
      unfold pySliceTo
      rw [if_neg (by omega), pySort_length]

theorem C7_witness :
    ((-1 : Int) ≤ 0) ∧
      (calculate_trending rt7 (-1) = [] ∨
        ((-1 : Int) < 0 ∧ 2 ≤ (allYears rt7).dedup.length ∧
          calculate_trending rt7 (-1) =
            (pySort trendLe (trendCandidates rt7)).take
              (((trendCandidates rt7).length : Int) + (-1)).toNat)) :=
  ⟨by decide, C7_amended rt7 (-1) (by decide)⟩

/-- C8: on any archive of well-formed rows in which some `(year, sex, name)`
key appears in more than one record, the parser raises no error and the
resulting table maps that key to the count of the last record carrying it
(silent last-seen-wins overwrite). -/
theorem C8_last_seen_wins (files : List (Nat × List (List String)))
    (y : Nat) (s n : String)
    (hwf : ∀ r ∈ flatRows files, wfRow r.2 = true)
    (hdup : 2 ≤ ((flatRows files).filter (recMatches y s n)).length) :
    ∃ yd, parse_names files = .ok yd ∧
      lookupYC yd y s n =
        (((flatRows files).filter (recMatches y s n)).getLast?).bind rowCount := by
  obtain ⟨yd, hok, hlook⟩ := parseRecs_last_wins (flatRows files) [] hwf
  refine ⟨yd, ?_, ?_⟩
  · show parseFiles files [] = .ok yd
    rw [parseFiles_eq_parseRecs]
    exact hok
  · have hl := hlook y s n
    cases hfl : (flatRows files).filter (recMatches y s n) with
    | nil => rw [hfl] at hdup; simp at hdup
    | cons q qs =>
      obtain ⟨r, hr⟩ := exists_getLast?_cons q qs
      rw [hfl, hr] at hl
      rw [hr]
      exact hl

theorem C8_witness :
    (∀ r ∈ flatRows files0, wfRow r.2 = true) ∧
      2 ≤ ((flatRows files0).filter (recMatches 2000 "M" "Alex")).length ∧
      ∃ yd, parse_names files0 = .ok yd ∧
        lookupYC yd 2000 "M" "Alex" = some 7 := by
  refine ⟨by decide, by decide, ?_⟩
  obtain ⟨yd, hok, hlk⟩ :=
    C8_last_seen_wins files0 2000 "M" "Alex" (by decide) (by decide)
  refine ⟨yd, hok, ?_⟩
  rw [hlk]
  rfl

end NameTrends
